import Mathlib

/-!
Shallow embedding of the kindle-audify pipeline core
(`src/ts/TextToSpeechTask.ts` and `src/app.ts`) together with proofs of the
behavioural properties stated in the specification.

Conventions of the embedding:
* JavaScript strings are modelled as Lean `String`s; `String.prototype.length`
  is modelled as the number of characters.
* JavaScript numbers holding OCR vertex coordinates are modelled as `ℚ`.
* Loops are modelled as structurally recursive functions; loops whose progress
  is data-dependent take an explicit fuel argument, returning `none` when the
  fuel is exhausted before the loop ends (so `none` for every fuel amount
  witnesses non-termination of the source loop).
* Calls to external providers (speech synthesis) are modelled by an oracle
  `Nat → Bool` giving the success or failure of each numbered attempt.
-/

/-! ### JavaScript string helpers -/

/-- JS `String.prototype.endsWith`: `t` is a suffix of `s`. -/
def endsWithJs (s t : String) : Bool := decide (t.data <:+ s.data)

/-- Scanner for JS `String.prototype.split(sep)` with a non-empty separator:
`acc` holds the (reversed) characters of the current piece; on each match of
`sep` the piece is emitted and the separator consumed.  Structural recursion on
the fuel, which is consumed one character (or one separator match) at a time. -/
def jsSplitAux (sep : List Char) : Nat → List Char → List Char → List (List Char)
  | _, [], acc => [acc.reverse]
  | 0, rest, acc => [(acc.reverse ++ rest)]
  | fuel + 1, c :: rest, acc =>
    if sep.isPrefixOf (c :: rest) then
      acc.reverse :: jsSplitAux sep fuel ((c :: rest).drop sep.length) []
    else
      jsSplitAux sep fuel rest (c :: acc)

/-- JS `s.split(sep)`.  An empty separator splits into single characters. -/
def jsSplit (s sep : String) : List String :=
  if sep = "" then s.data.map (fun c => String.mk [c])
  else (jsSplitAux sep.data s.data.length s.data []).map String.mk

/-! ### ChunkPlanner: `TextToSpeechTask.takeChunk` and the chunking loop of
`TextToSpeechTask.run` (`src/ts/TextToSpeechTask.ts`). -/

/-- `TextToSpeechTask.maxLength`. -/
def maxLength : Nat := 5000

/-- The loop body of `takeChunk`, run on the suffix `texts.drop index`.
Returns the accumulated chunk text together with `some k` when the loop
returned at offset `k` (the fragment at offset `k` would overflow), or `none`
when the loop ran off the end of the array. -/
def takeChunkAux (m : Nat) : List String → String → String × Option Nat
  | [], text => (text, none)
  | t :: rest, text =>
    if (text ++ t).length > m then (text, some 0)
    else
      match takeChunkAux m rest (text ++ t) with
      | (tx, some k) => (tx, some (k + 1))
      | (tx, none) => (tx, none)

/-- `TextToSpeechTask.takeChunk(texts, index)`: greedily accumulate fragments
from `index` while the accumulated length stays within `maxLength`; return the
chunk text and the index of the first fragment not taken (or `texts.length`
when the array is exhausted). -/
def takeChunk (texts : List String) (index : Nat) : String × Nat :=
  match takeChunkAux maxLength (texts.drop index) "" with
  | (tx, some k) => (tx, index + k)
  | (tx, none) => (tx, texts.length)

/-- The chunking loop of `TextToSpeechTask.run`: starting at fragment index
`i`, repeatedly call `takeChunk` and resume at the returned index, recording
for every chunk its text together with the start and stop indices of the range
of fragments it consumed.  Fuel-indexed; `none` means the loop did not finish
within the given fuel. -/
def chunksAux (texts : List String) : Nat → Nat → Option (List (String × Nat × Nat))
  | 0, i => if texts.length ≤ i then some [] else none
  | fuel + 1, i =>
    if i < texts.length then
      match chunksAux texts fuel (takeChunk texts i).2 with
      | some cs => some (((takeChunk texts i).1, i, (takeChunk texts i).2) :: cs)
      | none => none
    else some []

/-- `coversB texts i cs` checks that the chunk list `cs` consumes contiguous,
non-overlapping, in-order ranges of `texts` starting exactly at index `i` and
ending exactly at `texts.length`, and that each chunk's text is the
concatenation of the fragments of its range. -/
def coversB (texts : List String) : Nat → List (String × Nat × Nat) → Bool
  | i, [] => decide (i = texts.length)
  | i, (t, a, b) :: rest =>
    decide (a = i) && decide (i ≤ b) && decide (b ≤ texts.length) &&
      decide (t = String.join ((texts.drop a).take (b - a))) && coversB texts b rest

/-! ### Helper lemmas about `String.join` -/

theorem join_cons_eq (a : String) (l : List String) :
    String.join (a :: l) = a ++ String.join l := by
  apply String.ext
  simp [String.data_join, String.data_append]

theorem join_append_eq (l₁ l₂ : List String) :
    String.join (l₁ ++ l₂) = String.join l₁ ++ String.join l₂ := by
  apply String.ext
  simp [String.data_join, String.data_append]

theorem empty_append_eq (s : String) : "" ++ s = s := rfl

theorem join_nil_eq : String.join [] = "" := rfl

/-! ### Properties of `takeChunkAux` -/

theorem takeChunkAux_some_lt (m : Nat) :
    ∀ (l : List String) (text tx : String) (k : Nat),
      takeChunkAux m l text = (tx, some k) → k < l.length := by
  intro l
  induction l with
  | nil => intro text tx k h; simp [takeChunkAux] at h
  | cons t rest ih =>
    intro text tx k h
    rw [takeChunkAux] at h
    by_cases hc : (text ++ t).length > m
    · rw [if_pos hc] at h
      simp only [Prod.mk.injEq, Option.some.injEq] at h
      simp [← h.2]
    · rw [if_neg hc] at h
      cases hr : takeChunkAux m rest (text ++ t) with
      | mk tx' o =>
        cases o with
        | some k' =>
          rw [hr] at h
          simp only [Prod.mk.injEq, Option.some.injEq] at h
          have := ih (text ++ t) tx' k' hr
          simp only [List.length_cons, ← h.2]
          omega
        | none => rw [hr] at h; simp at h

theorem takeChunkAux_fst (m : Nat) :
    ∀ (l : List String) (text : String),
      (takeChunkAux m l text).1 =
        text ++ String.join (l.take (((takeChunkAux m l text).2).getD l.length)) := by
  intro l
  induction l with
  | nil =>
    intro text
    simp [takeChunkAux, join_nil_eq, String.append_empty]
  | cons t rest ih =>
    intro text
    rw [takeChunkAux]
    by_cases hc : (text ++ t).length > m
    · rw [if_pos hc]
      simp [join_nil_eq, String.append_empty]
    · rw [if_neg hc]
      cases hr : takeChunkAux m rest (text ++ t) with
      | mk tx o =>
        have hfst := ih (text ++ t)
        rw [hr] at hfst
        cases o with
        | some k =>
          simp only [Option.getD_some] at hfst
          simp only [Option.getD_some, List.take_succ_cons, hfst, join_cons_eq,
            String.append_assoc]
        | none =>
          simp only [Option.getD_none, List.take_length] at hfst
          simp only [Option.getD_none, List.length_cons, List.take_succ_cons,
            List.take_length, hfst, join_cons_eq, String.append_assoc]

theorem takeChunk_spec (texts : List String) (i : Nat) (hi : i ≤ texts.length) :
    i ≤ (takeChunk texts i).2 ∧ (takeChunk texts i).2 ≤ texts.length ∧
      (takeChunk texts i).1 =
        String.join ((texts.drop i).take ((takeChunk texts i).2 - i)) := by
  unfold takeChunk
  cases hr : takeChunkAux maxLength (texts.drop i) "" with
  | mk tx o =>
    have hfst := takeChunkAux_fst maxLength (texts.drop i) ""
    rw [hr] at hfst
    cases o with
    | some k =>
      have hk : k < (texts.drop i).length := takeChunkAux_some_lt maxLength _ _ _ _ hr
      rw [List.length_drop] at hk
      refine ⟨?_, ?_, ?_⟩
      · show i ≤ i + k
        omega
      · show i + k ≤ texts.length
        omega
      · show tx = String.join ((texts.drop i).take (i + k - i))
        have : i + k - i = k := by omega
        rw [this]
        simp only [Option.getD_some] at hfst
        simpa [empty_append_eq] using hfst
    | none =>
      refine ⟨?_, ?_, ?_⟩
      · show i ≤ texts.length
        exact hi
      · show texts.length ≤ texts.length
        exact le_rfl
      · show tx = String.join ((texts.drop i).take (texts.length - i))
        simp only [Option.getD_none] at hfst
        rw [List.take_length] at hfst
        rw [← List.length_drop i texts, List.take_length]
        simpa [empty_append_eq] using hfst

theorem chunksAux_covers (texts : List String) :
    ∀ (fuel i : Nat) (cs : List (String × Nat × Nat)), i ≤ texts.length →
      chunksAux texts fuel i = some cs →
      coversB texts i cs = true ∧
        String.join (cs.map (fun c => c.1)) = String.join (texts.drop i) := by
  intro fuel
  induction fuel with
  | zero =>
    intro i cs hi h
    rw [chunksAux] at h
    by_cases hle : texts.length ≤ i
    · rw [if_pos hle] at h
      cases h
      have : i = texts.length := by omega
      subst this
      simp [coversB, List.drop_length, join_nil_eq]
    · rw [if_neg hle] at h; cases h
  | succ fuel ih =>
    intro i cs hi h
    rw [chunksAux] at h
    by_cases hlt : i < texts.length
    · rw [if_pos hlt] at h
      cases hr : chunksAux texts fuel (takeChunk texts i).2 with
      | none => rw [hr] at h; cases h
      | some cs' =>
        rw [hr] at h
        cases h
        obtain ⟨h1, h2, h3⟩ := takeChunk_spec texts i (le_of_lt hlt)
        obtain ⟨hcov, hjoin⟩ := ih (takeChunk texts i).2 cs' h2 hr
        constructor
        · simp only [coversB, hcov, Bool.and_true]
          simp [h1, h2, h3]
        · simp only [List.map_cons, join_cons_eq, hjoin, h3]
          have hdd : (texts.drop i).drop ((takeChunk texts i).2 - i) =
              texts.drop (takeChunk texts i).2 := by
            rw [List.drop_drop]
            congr 1
            omega
          rw [← hdd, ← join_append_eq, List.take_append_drop]
    · rw [if_neg hlt] at h
      cases h
      have : i = texts.length := by omega
      subst this
      simp [coversB, List.drop_length, join_nil_eq]

/-- C3: iterating `takeChunk` from index 0, each call resuming at the
previously returned index, until the returned index reaches the fragment
count, produces chunks consuming contiguous, non-overlapping, in-order ranges
of fragments (checked by `coversB`), and the concatenation of all chunk texts
reconstructs the concatenation of the original fragment sequence. -/
theorem chunking_covers (texts : List String) (fuel : Nat)
    (cs : List (String × Nat × Nat)) (h : chunksAux texts fuel 0 = some cs) :
    coversB texts 0 cs = true ∧
      String.join (cs.map (fun c => c.1)) = String.join texts := by
  have := chunksAux_covers texts fuel 0 cs (Nat.zero_le _) h
  simpa using this

theorem chunking_covers_witness :
    chunksAux ["ab", "cd"] 3 0 = some [("abcd", 0, 2)] ∧
      (coversB ["ab", "cd"] 0 [("abcd", 0, 2)] = true ∧
        String.join ([("abcd", 0, 2)].map (fun c => c.1)) =
          String.join ["ab", "cd"]) :=
  ⟨by decide, chunking_covers ["ab", "cd"] 3 [("abcd", 0, 2)] (by decide)⟩

/-- C10: for `i < texts.length`, `takeChunk texts i` returns an index strictly
greater than `i` iff the fragment at `i` has length at most `maxLength`; when
the fragment is longer, `takeChunk` returns the empty string with the index
unchanged, so the chunking loop of `run` makes no progress and never
terminates (it returns `none` for every amount of fuel). -/
theorem takeChunk_progress_iff (texts : List String) (i : Nat)
    (hi : i < texts.length) :
    (i < (takeChunk texts i).2 ↔ (texts.get ⟨i, hi⟩).length ≤ maxLength) ∧
      (maxLength < (texts.get ⟨i, hi⟩).length →
        takeChunk texts i = ("", i) ∧ ∀ fuel, chunksAux texts fuel i = none) := by
  have hdrop : texts.drop i = texts.get ⟨i, hi⟩ :: texts.drop (i + 1) := by
    rw [List.drop_eq_getElem_cons hi]
    simp
  by_cases hlen : (texts.get ⟨i, hi⟩).length ≤ maxLength
  · constructor
    · rw [iff_true_intro hlen, iff_true]
      unfold takeChunk
      rw [hdrop, takeChunkAux]
      rw [empty_append_eq]
      rw [if_neg (by omega)]
      cases hr : takeChunkAux maxLength (texts.drop (i + 1)) (texts.get ⟨i, hi⟩) with
      | mk tx o =>
        cases o with
        | some k => show i < i + (k + 1); omega
        | none => show i < texts.length; omega
    · intro hgt
      omega
  · push_neg at hlen
    have heq : takeChunk texts i = ("", i) := by
      unfold takeChunk
      rw [hdrop, takeChunkAux, empty_append_eq, if_pos (by omega)]
      rfl
    refine ⟨?_, fun _ => ⟨heq, ?_⟩⟩
    · rw [heq]
      exact iff_of_false (fun h2 => Nat.lt_irrefl i h2)
        (fun h2 => absurd h2 (not_le.mpr hlen))
    · intro fuel
      induction fuel with
      | zero => rw [chunksAux, if_neg (by omega)]
      | succ fuel ihf =>
        rw [chunksAux, if_pos hi, heq]
        simp only []
        rw [ihf]

theorem takeChunk_progress_iff_witness :
    (0 < (takeChunk ["ab"] 0).2 ↔
        (["ab"].get ⟨0, by decide⟩).length ≤ maxLength) ∧
      (maxLength < (["ab"].get ⟨0, by decide⟩).length →
        takeChunk ["ab"] 0 = ("", 0) ∧ ∀ fuel, chunksAux ["ab"] fuel 0 = none) :=
  takeChunk_progress_iff ["ab"] 0 (by decide)

/-- A fragment of 6000 characters, exceeding `maxLength`. -/
def bigFragment : String := String.mk (List.replicate 6000 'a')

/-- C2 (failing input): on a fragment sequence whose fragment at the start
index alone exceeds `maxLength` (here a single fragment of length 6000),
`takeChunk` does not return a chunk containing that fragment: it returns the
empty chunk together with the unchanged index. -/
theorem takeChunk_oversized_eval : takeChunk [bigFragment] 0 = ("", 0) := by
  have h6 : bigFragment.length = 6000 := by
    show (List.replicate 6000 'a').length = 6000
    exact List.length_replicate 6000 'a'
  have he : ("" : String) ++ bigFragment = bigFragment := rfl
  unfold takeChunk
  rw [List.drop_zero, takeChunkAux, he, h6, if_pos (by norm_num [maxLength])]

/-! ### SentenceSegmenter: the OCR data model and
`TextToSpeechTask.splitSentences` (`src/ts/TextToSpeechTask.ts`).
Vertex coordinates are modelled as `ℚ`. -/

structure OcrVertex where
  x : ℚ
  y : ℚ
deriving DecidableEq

structure OcrBoundingBox where
  normalizedVertices : List OcrVertex
deriving DecidableEq

structure OcrSymbol where
  text : String
deriving DecidableEq

structure OcrWord where
  boundingBox : OcrBoundingBox
  symbols : List OcrSymbol
deriving DecidableEq

structure OcrParagraph where
  words : List OcrWord
deriving DecidableEq

structure OcrBlock where
  paragraphs : List OcrParagraph
deriving DecidableEq

structure OcrPage where
  blocks : List OcrBlock
deriving DecidableEq

/-- `fullTextAnnotation` (optional on each response). -/
structure OcrAnno where
  pages : List OcrPage
deriving DecidableEq

structure OcrResponse where
  fullTextAnno : Option OcrAnno
deriving DecidableEq

structure OcrRoot where
  responses : List OcrResponse
deriving DecidableEq

/-- The `WordLevelText` records that `splitSentences` collects per page:
bounding box plus the concatenation of the word's symbol texts. -/
structure WordLevelText where
  boundingBox : OcrBoundingBox
  text : String
deriving DecidableEq

/-- `e.symbols.map(f => f.text).join('')`. -/
def wordTextOf (e : OcrWord) : String := String.join (e.symbols.map (fun f => f.text))

/-- The nested `forEach` pushes of `splitSentences` collecting the words of
one page in provider emission order. -/
def pageWords (b : OcrPage) : List WordLevelText :=
  b.blocks.flatMap (fun c =>
    c.paragraphs.flatMap (fun d =>
      d.words.map (fun e =>
        ({ boundingBox := e.boundingBox, text := wordTextOf e } : WordLevelText))))

/-- The outer `forEach` of `splitSentences`: one word list per page, from the
responses that carry a `fullTextAnnotation`. -/
def allPages (root : OcrRoot) : List (List WordLevelText) :=
  root.responses.flatMap (fun a =>
    match a.fullTextAnno with
    | some anno => anno.pages.map pageWords
    | none => [])

/-- The y coordinates of a word's bounding-box vertices. -/
def wordYs (w : WordLevelText) : List ℚ := w.boundingBox.normalizedVertices.map (fun p => p.y)

/-- All y coordinates on the page: `words.map(w => ...ys).flat()`. -/
def pageYs (words : List WordLevelText) : List ℚ := words.flatMap wordYs

/-- JS `Math.max(...l)`: `none` models `-Infinity` (empty argument list). -/
def jsMax : List ℚ → Option ℚ
  | [] => none
  | q :: l =>
    match jsMax l with
    | none => some q
    | some m => some (max q m)

/-- JS `Math.min(...l)`: `none` models `+Infinity` (empty argument list). -/
def jsMin : List ℚ → Option ℚ
  | [] => none
  | q :: l =>
    match jsMin l with
    | none => some q
    | some m => some (min q m)

/-- `y < ymax * 0.9`, where `ymax` is `-Infinity` when the page has no
vertices (the comparison is then false). -/
def belowBand (ymax : Option ℚ) (y : ℚ) : Bool :=
  match ymax with
  | none => false
  | some m => decide (y < m * (9 / 10 : ℚ))

/-- `Math.min(...nextYs) < Math.max(...currentYs)`: comparisons involving
`+Infinity` on the left or `-Infinity` on the right are false. -/
def ltOpt (a b : Option ℚ) : Bool :=
  match a, b with
  | some q, some r => decide (q < r)
  | _, _ => false

/-- The text pushed for word `i` (given the following word `i+1`): the word's
text, with the delimiter appended when the boundary heuristic fires. -/
def boundaryText (delim : String) (ymax : Option ℚ) (w wNext : WordLevelText) : String :=
  if (wordYs w).all (belowBand ymax) && ltOpt (jsMin (wordYs wNext)) (jsMax (wordYs w))
  then w.text ++ delim
  else w.text

/-- The per-page push loop of `splitSentences`: the body pushes only when
`i < words.length - 1`, so nothing is pushed for the final word of the page
(its text is dropped by the code). -/
def pageTexts (delim : String) (ymax : Option ℚ) : List WordLevelText → List String
  | [] => []
  | [_] => []
  | w :: wNext :: rest => boundaryText delim ymax w wNext :: pageTexts delim ymax (wNext :: rest)

/-- `TextToSpeechTask.splitSentences`: build the per-page text stream, join,
split on the delimiter, drop empty pieces, re-append the delimiter. -/
def splitSentences (delim : String) (root : OcrRoot) : List String :=
  let texts := (allPages root).flatMap (fun words => pageTexts delim (jsMax (pageYs words)) words)
  ((jsSplit (String.join texts) delim).filter (fun x => x != "")).map
    (fun x => if endsWithJs x delim then x else x ++ delim)

/-! ### Fragment invariants (C5) -/

theorem endsWithJs_append (x d : String) : endsWithJs (x ++ d) d = true := by
  unfold endsWithJs
  rw [String.data_append]
  exact decide_eq_true (List.suffix_append x.data d.data)

theorem append_ne_empty_of_ne (x d : String) (hx : x ≠ "") : x ++ d ≠ "" := by
  intro hcontra
  apply hx
  apply String.ext
  have : (x ++ d).data = [] := by rw [hcontra]
  rw [String.data_append] at this
  exact List.append_eq_nil.mp this |>.1

/-- C5: every string produced by `splitSentences` is non-empty and ends with
the configured delimiter. -/
theorem fragment_invariant (delim : String) (root : OcrRoot) (y : String)
    (hy : y ∈ splitSentences delim root) :
    y ≠ "" ∧ endsWithJs y delim = true := by
  unfold splitSentences at hy
  rw [List.mem_map] at hy
  obtain ⟨x, hxmem, hxy⟩ := hy
  rw [List.mem_filter] at hxmem
  have hxne : x ≠ "" := by
    have := hxmem.2
    simpa [bne_iff_ne] using this
  by_cases he : endsWithJs x delim = true
  · rw [if_pos he] at hxy
    exact hxy ▸ ⟨hxne, he⟩
  · rw [if_neg he] at hxy
    exact hxy ▸ ⟨append_ne_empty_of_ne x delim hxne, endsWithJs_append x delim⟩

/-- A page with a single word: the box carries four vertices, the word text is
`あ`. -/
def rootOneWord : OcrRoot :=
  OcrRoot.mk [OcrResponse.mk (some (OcrAnno.mk [OcrPage.mk [OcrBlock.mk
    [OcrParagraph.mk [OcrWord.mk
      (OcrBoundingBox.mk [OcrVertex.mk 0 0, OcrVertex.mk 1 0,
        OcrVertex.mk 1 1, OcrVertex.mk 0 1])
      [OcrSymbol.mk "あ"]]]]]))]

/-- A page with two words `あ` and `い` whose boxes carry no vertices (so the
boundary heuristic sees empty vertex lists and does not fire). -/
def rootPair : OcrRoot :=
  OcrRoot.mk [OcrResponse.mk (some (OcrAnno.mk [OcrPage.mk [OcrBlock.mk
    [OcrParagraph.mk [
      OcrWord.mk (OcrBoundingBox.mk []) [OcrSymbol.mk "あ"],
      OcrWord.mk (OcrBoundingBox.mk []) [OcrSymbol.mk "い"]]]]]))]

theorem fragment_invariant_witness :
    "あ。" ∈ splitSentences "。" rootPair ∧
      ("あ。" ≠ "" ∧ endsWithJs "あ。" "。" = true) :=
  ⟨by decide, fragment_invariant "。" rootPair "あ。" (by decide)⟩

/-- C1 (failing inputs): the per-page stream is NOT the concatenation of every
word's text: the loop in `splitSentences` pushes only for `i < words.length-1`,
so the last word of each page is dropped.  A one-word page produces no output
at all, and on a two-word page the second word's text (`い`) is missing from
the output. -/
theorem splitSentences_drops_last_word_eval :
    splitSentences "。" rootOneWord = [] ∧
      splitSentences "。" rootPair = ["あ。"] := by
  constructor
  · decide
  · decide

/-! ### The boundary heuristic (C9) -/

theorem jsMax_eq_none (l : List ℚ) (h : jsMax l = none) : l = [] := by
  cases l with
  | nil => rfl
  | cons q rest =>
    rw [jsMax] at h
    cases hr : jsMax rest <;> rw [hr] at h <;> cases h

theorem jsMin_eq_none (l : List ℚ) (h : jsMin l = none) : l = [] := by
  cases l with
  | nil => rfl
  | cons q rest =>
    rw [jsMin] at h
    cases hr : jsMin rest <;> rw [hr] at h <;> cases h

theorem jsMax_spec : ∀ (l : List ℚ) (m : ℚ),
    jsMax l = some m → m ∈ l ∧ ∀ x ∈ l, x ≤ m := by
  intro l
  induction l with
  | nil => intro m h; cases h
  | cons q rest ih =>
    intro m h
    rw [jsMax] at h
    cases hr : jsMax rest with
    | none =>
      rw [hr] at h
      cases h
      have hrest : rest = [] := jsMax_eq_none rest hr
      subst hrest
      exact ⟨List.mem_singleton_self q, by intro x hx; simp at hx; simp [hx]⟩
    | some mr =>
      rw [hr] at h
      cases h
      obtain ⟨hmem, hle⟩ := ih mr hr
      constructor
      · rcases le_total q mr with hq | hq
        · rw [max_eq_right hq]
          exact List.mem_cons_of_mem q hmem
        · rw [max_eq_left hq]
          exact List.mem_cons_self q rest
      · intro x hx
        rcases List.mem_cons.mp hx with rfl | hx2
        · exact le_max_left x mr
        · exact le_trans (hle x hx2) (le_max_right q mr)

theorem jsMin_spec : ∀ (l : List ℚ) (m : ℚ),
    jsMin l = some m → m ∈ l ∧ ∀ x ∈ l, m ≤ x := by
  intro l
  induction l with
  | nil => intro m h; cases h
  | cons q rest ih =>
    intro m h
    rw [jsMin] at h
    cases hr : jsMin rest with
    | none =>
      rw [hr] at h
      cases h
      have hrest : rest = [] := jsMin_eq_none rest hr
      subst hrest
      exact ⟨List.mem_singleton_self q, by intro x hx; simp at hx; simp [hx]⟩
    | some mr =>
      rw [hr] at h
      cases h
      obtain ⟨hmem, hle⟩ := ih mr hr
      constructor
      · rcases le_total q mr with hq | hq
        · rw [min_eq_left hq]
          exact List.mem_cons_self q rest
        · rw [min_eq_right hq]
          exact List.mem_cons_of_mem q hmem
      · intro x hx
        rcases List.mem_cons.mp hx with rfl | hx2
        · exact min_le_left x mr
        · exact le_trans (min_le_right q mr) (hle x hx2)

theorem jsMax_ne_none (l : List ℚ) (h : l ≠ []) : ∃ m, jsMax l = some m := by
  cases hr : jsMax l with
  | none => exact absurd (jsMax_eq_none l hr) h
  | some m => exact ⟨m, rfl⟩

theorem jsMin_ne_none (l : List ℚ) (h : l ≠ []) : ∃ m, jsMin l = some m := by
  cases hr : jsMin l with
  | none => exact absurd (jsMin_eq_none l hr) h
  | some m => exact ⟨m, rfl⟩

/-- The `Math.min(...next) < Math.max(...current)` comparison holds iff some
y of `next` is strictly below some y of `current`. -/
theorem ltOpt_minmax_iff (a b : List ℚ) :
    ltOpt (jsMin a) (jsMax b) = true ↔ ∃ x ∈ a, ∃ y ∈ b, x < y := by
  constructor
  · intro h
    cases hmn : jsMin a with
    | none => rw [hmn] at h; cases h
    | some mn =>
      cases hmx : jsMax b with
      | none => rw [hmn, hmx] at h; cases h
      | some mx =>
        rw [hmn, hmx] at h
        have hlt : mn < mx := of_decide_eq_true h
        exact ⟨mn, (jsMin_spec a mn hmn).1, mx, (jsMax_spec b mx hmx).1, hlt⟩
  · rintro ⟨x, hx, y, hy, hxy⟩
    obtain ⟨mn, hmn⟩ := jsMin_ne_none a (List.ne_nil_of_mem hx)
    obtain ⟨mx, hmx⟩ := jsMax_ne_none b (List.ne_nil_of_mem hy)
    rw [hmn, hmx]
    have h1 : mn ≤ x := (jsMin_spec a mn hmn).2 x hx
    have h2 : y ≤ mx := (jsMax_spec b mx hmx).2 y hy
    exact decide_eq_true (lt_of_le_of_lt h1 (lt_of_lt_of_le hxy h2))

/-- The `currentYs.every(y => y < ymax * 0.9)` check holds iff every y of the
current word is strictly below nine tenths of `ymax`. -/
theorem all_belowBand_iff (ys : List ℚ) (m : ℚ) :
    ys.all (belowBand (some m)) = true ↔ ∀ y ∈ ys, y < (9 / 10 : ℚ) * m := by
  rw [List.all_eq_true]
  constructor
  · intro h y hy
    have := of_decide_eq_true (h y hy)
    rw [mul_comm] at this
    exact this
  · intro h y hy
    exact decide_eq_true (by rw [mul_comm]; exact h y hy)

theorem pageTexts_length (delim : String) (ymax : Option ℚ) :
    ∀ words : List WordLevelText,
      (pageTexts delim ymax words).length = words.length - 1 := by
  intro words
  induction words with
  | nil => rfl
  | cons w ws ih =>
    cases ws with
    | nil => rfl
    | cons wn rest =>
      rw [pageTexts]
      simp only [List.length_cons] at ih ⊢
      omega

theorem pageTexts_get (delim : String) (ymax : Option ℚ) :
    ∀ (words : List WordLevelText) (i : Nat) (h1 : i < words.length)
      (h2 : i + 1 < words.length)
      (h3 : i < (pageTexts delim ymax words).length),
      (pageTexts delim ymax words).get ⟨i, h3⟩ =
        boundaryText delim ymax (words.get ⟨i, h1⟩) (words.get ⟨i + 1, h2⟩) := by
  intro words
  induction words with
  | nil => intro i h1 h2 h3; simp at h1
  | cons w ws ih =>
    intro i h1 h2 h3
    cases ws with
    | nil => simp at h2
    | cons wn rest =>
      cases i with
      | zero => rfl
      | succ i =>
        have h1a : i < (wn :: rest).length := by
          simp only [List.length_cons] at h1 ⊢
          omega
        have h2a : i + 1 < (wn :: rest).length := by
          simp only [List.length_cons] at h2 ⊢
          omega
        have h3a : i < (pageTexts delim ymax (wn :: rest)).length := by
          rw [pageTexts] at h3
          simp only [List.length_cons] at h3
          omega
        have hl : (pageTexts delim ymax (w :: wn :: rest)).get ⟨i + 1, h3⟩ =
            (pageTexts delim ymax (wn :: rest)).get ⟨i, h3a⟩ := rfl
        rw [hl, ih i h1a h2a h3a]
        rfl

theorem text_ne_text_append (t d : String) (hd : d ≠ "") : t ≠ t ++ d := by
  intro h
  have hlen := congrArg String.length h
  rw [String.length_append] at hlen
  have hdl : d.length = 0 := by omega
  have hdata : d.data = [] := List.length_eq_zero.mp hdl
  exact hd (String.ext (by rw [hdata]))

/-- C9: for every word `i` except the last of a page, the per-page stream of
`splitSentences` (built by `pageTexts` with the page's `Math.max` of all
y-vertices) carries the delimiter after word `i`'s text iff every y-vertex of
word `i` is strictly below nine tenths of the page maximum `ymax` and some
y-vertex of word `i+1` lies strictly below some y-vertex of word `i` (i.e.
the minimum y of word `i+1` is less than the maximum y of word `i`). -/
theorem boundary_iff (delim : String) (hd : delim ≠ "")
    (words : List WordLevelText) (i : Nat) (h1 : i < words.length)
    (h2 : i + 1 < words.length)
    (h3 : i < (pageTexts delim (jsMax (pageYs words)) words).length)
    (ymax : ℚ) (hymax : jsMax (pageYs words) = some ymax) :
    (pageTexts delim (jsMax (pageYs words)) words).get ⟨i, h3⟩ =
        (words.get ⟨i, h1⟩).text ++ delim ↔
      ((∀ y ∈ wordYs (words.get ⟨i, h1⟩), y < (9 / 10 : ℚ) * ymax) ∧
        ∃ y1 ∈ wordYs (words.get ⟨i + 1, h2⟩),
          ∃ y2 ∈ wordYs (words.get ⟨i, h1⟩), y1 < y2) := by
  rw [pageTexts_get delim (jsMax (pageYs words)) words i h1 h2 h3]
  unfold boundaryText
  rw [hymax]
  by_cases hc : ((wordYs (words.get ⟨i, h1⟩)).all (belowBand (some ymax)) &&
      ltOpt (jsMin (wordYs (words.get ⟨i + 1, h2⟩)))
        (jsMax (wordYs (words.get ⟨i, h1⟩)))) = true
  · rw [if_pos hc]
    rw [Bool.and_eq_true] at hc
    exact iff_of_true rfl
      ⟨(all_belowBand_iff _ ymax).mp hc.1, (ltOpt_minmax_iff _ _).mp hc.2⟩
  · rw [if_neg hc]
    apply iff_of_false
    · exact text_ne_text_append _ delim hd
    · intro hcond
      apply hc
      rw [Bool.and_eq_true]
      exact ⟨(all_belowBand_iff _ ymax).mpr hcond.1, (ltOpt_minmax_iff _ _).mpr hcond.2⟩

/-- Two words on one page whose geometry makes the boundary heuristic fire
for word 0: all y of word 0 (5 and 6) lie below nine tenths of the page
maximum 10, and word 1 has a y-vertex (1) below a y-vertex of word 0 (5). -/
def wordsOverlap : List WordLevelText :=
  [WordLevelText.mk (OcrBoundingBox.mk [OcrVertex.mk 0 5, OcrVertex.mk 1 6]) "あ",
   WordLevelText.mk (OcrBoundingBox.mk [OcrVertex.mk 0 1, OcrVertex.mk 1 10]) "い"]

theorem boundary_iff_witness :
    (pageTexts "。" (jsMax (pageYs wordsOverlap)) wordsOverlap).get
        ⟨0, by decide⟩ = "あ。" :=
  (boundary_iff "。" (by decide) wordsOverlap 0 (by decide) (by decide)
      (by decide) 10 (by decide)).mpr
    ⟨by
      intro y hy
      have hy2 : y ∈ [(5 : ℚ), 6] := hy
      rcases List.mem_cons.mp hy2 with rfl | hy3
      · norm_num
      · rcases List.mem_cons.mp hy3 with rfl | hy4
        · norm_num
        · simp at hy4,
     ⟨1, by decide, 5, by decide, by decide⟩⟩

/-! ### BoundedTaskRunner: output paths, the retry wrapper and the job loop of
`TextToSpeechTask.run` (`src/ts/TextToSpeechTask.ts`). -/

/-- Zero padding of `TextToSpeechTask.getOutputPath`: numbers below 10 get
`00`, below 100 get `0`, larger numbers are not padded. -/
def pad3 (num : Nat) : String :=
  (if num < 10 then "00" else if num < 100 then "0" else "") ++ toString num

/-- `TextToSpeechTask.getOutputPath(prefix, num)`. -/
def getOutputPath (pfx : String) (num : Nat) : String :=
  pfx ++ "/output-" ++ pad3 num ++ ".mp3"

/-- The `promise-retry` wrapper around `ttsRequest` in `run`: the handler is
invoked with `count = 1, 2, ...`; at `count > 5` it rejects with
`gave up after ${count-1} retry`, otherwise it calls `ttsRequest` (whose
success at attempt `count` is given by the oracle `succ`) and retries on
failure.  Returns the job's result together with the number of `ttsRequest`
invocations.  The fuel models the library's own retry budget (default 10
retries, i.e. at most 11 handler invocations). -/
def retryGo (path : String) (succ : Nat → Bool) : Nat → Nat → Except String String × Nat
  | 0, _ => (Except.error "retries exhausted", 0)
  | fuel + 1, count =>
    if count > 5 then
      (Except.error ("gave up after " ++ toString (count - 1) ++ " retry"), 0)
    else if succ count then (Except.ok path, 1)
    else
      ((retryGo path succ fuel (count + 1)).1, (retryGo path succ fuel (count + 1)).2 + 1)

/-- `promise-retry`'s default attempt budget: 10 retries after the first
invocation. -/
def retryAttempts : Nat := 11

/-- One job of `TextToSpeechTask.run`: if some listed file ends with the
job's output path the job resolves immediately with the path (zero
`ttsRequest` calls), otherwise the retry wrapper runs. -/
def jobRun (exist : List String) (path : String) (succ : Nat → Bool) :
    Except String String × Nat :=
  if exist.any (fun f => endsWithJs f path) then (Except.ok path, 0)
  else retryGo path succ retryAttempts 1

/-- `Promise.all` over the per-chunk job results: the first rejection (in
job order) rejects the aggregate, otherwise all values are returned in
order. -/
def collectAll : List (Except String String) → Except String (List String)
  | [] => Except.ok []
  | Except.ok x :: rest => (collectAll rest).map (fun l => x :: l)
  | Except.error e :: _ => Except.error e

/-- The chunk/job loop of `TextToSpeechTask.run`: for each chunk (produced as
in `chunksAux`) one job is pushed with output number `num+1`; returns the
per-job results in order together with the total number of `ttsRequest`
invocations.  `succ j a` tells whether job `j`'s attempt `a` succeeds. -/
def runAux (texts exist : List String) (pfx : String) (succ : Nat → Nat → Bool) :
    Nat → Nat → Nat → Option (List (Except String String) × Nat)
  | 0, i, _ => if texts.length ≤ i then some ([], 0) else none
  | fuel + 1, i, num =>
    if i < texts.length then
      match runAux texts exist pfx succ fuel (takeChunk texts i).2 (num + 1) with
      | some (rs, n) =>
        some ((jobRun exist (getOutputPath pfx (num + 1)) (succ (num + 1))).1 :: rs,
          (jobRun exist (getOutputPath pfx (num + 1)) (succ (num + 1))).2 + n)
      | none => none
    else some ([], 0)

/-- `TextToSpeechTask.run` (given the up-front listing `exist`): the
aggregated `Promise.all` result plus the total `ttsRequest` call count. -/
def runModel (texts exist : List String) (pfx : String) (succ : Nat → Nat → Bool)
    (fuel : Nat) : Option (Except String (List String) × Nat) :=
  (runAux texts exist pfx succ fuel 0 0).map (fun r => (collectAll r.1, r.2))

theorem collectAll_error : ∀ (rs : List (Except String String)) (e : String),
    Except.error e ∈ rs → ∃ e2, collectAll rs = Except.error e2 := by
  intro rs
  induction rs with
  | nil => intro e he; cases he
  | cons r rest ih =>
    intro e he
    cases r with
    | error e1 => exact ⟨e1, rfl⟩
    | ok x =>
      rcases List.mem_cons.mp he with h | h
      · cases h
      · obtain ⟨e2, he2⟩ := ih e h
        exact ⟨e2, by rw [collectAll, he2]; rfl⟩

theorem collectAll_ok : ∀ l : List String,
    collectAll (l.map Except.ok) = Except.ok l := by
  intro l
  induction l with
  | nil => rfl
  | cons x rest ih => rw [List.map_cons, collectAll, ih]; rfl

/-- C6: for a job whose output path is not covered by the up-front listing,
`ttsRequest` is invoked at most 5 times; if attempts 1..5 all fail the job
rejects with `gave up after 5 retry` after exactly 5 invocations (never a
6th), and any rejected job rejects the `Promise.all` aggregation of the whole
run. -/
theorem retry_bound (exist : List String) (path : String) (succ : Nat → Bool)
    (hnc : exist.any (fun f => endsWithJs f path) = false) :
    (jobRun exist path succ).2 ≤ 5 ∧
      ((∀ c, 1 ≤ c → c ≤ 5 → succ c = false) →
        jobRun exist path succ = (Except.error "gave up after 5 retry", 5)) ∧
      (∀ (rs : List (Except String String)) (e : String),
        Except.error e ∈ rs → ∃ e2, collectAll rs = Except.error e2) := by
  have hj : jobRun exist path succ = retryGo path succ retryAttempts 1 := by
    rw [jobRun, if_neg]
    rw [hnc]
    simp
  refine ⟨?_, ?_, collectAll_error⟩
  · rw [hj]
    cases h1 : succ 1 <;> cases h2 : succ 2 <;> cases h3 : succ 3 <;>
      cases h4 : succ 4 <;> cases h5 : succ 5 <;>
      simp [retryGo, retryAttempts, h1, h2, h3, h4, h5]
  · intro hfail
    rw [hj]
    have h1 := hfail 1 (by omega) (by omega)
    have h2 := hfail 2 (by omega) (by omega)
    have h3 := hfail 3 (by omega) (by omega)
    have h4 := hfail 4 (by omega) (by omega)
    have h5 := hfail 5 (by omega) (by omega)
    simp only [retryGo, retryAttempts, h1, h2, h3, h4, h5]
    norm_num
    decide

theorem retry_bound_witness :
    ((jobRun [] "p/output-001.mp3" (fun _ => false)).2 ≤ 5 ∧
      ((∀ c, 1 ≤ c → c ≤ 5 → (fun _ : Nat => false) c = false) →
        jobRun [] "p/output-001.mp3" (fun _ => false) =
          (Except.error "gave up after 5 retry", 5)) ∧
      (∀ (rs : List (Except String String)) (e : String),
        Except.error e ∈ rs → ∃ e2, collectAll rs = Except.error e2)) :=
  retry_bound [] "p/output-001.mp3" (fun _ => false) rfl

theorem runAux_skip (texts exist : List String) (pfx : String)
    (succ : Nat → Nat → Bool) :
    ∀ (fuel i num : Nat) (cs : List (String × Nat × Nat)),
      chunksAux texts fuel i = some cs →
      (∀ k, k < cs.length →
        exist.any (fun f => endsWithJs f (getOutputPath pfx (num + k + 1))) = true) →
      runAux texts exist pfx succ fuel i num =
        some ((List.range cs.length).map
          (fun k => Except.ok (getOutputPath pfx (num + k + 1))), 0) := by
  intro fuel
  induction fuel with
  | zero =>
    intro i num cs hch hcov
    rw [chunksAux] at hch
    by_cases hle : texts.length ≤ i
    · rw [if_pos hle] at hch
      cases hch
      rw [runAux, if_pos hle]
      rfl
    · rw [if_neg hle] at hch; cases hch
  | succ fuel ih =>
    intro i num cs hch hcov
    rw [chunksAux] at hch
    by_cases hlt : i < texts.length
    · rw [if_pos hlt] at hch
      cases hr : chunksAux texts fuel (takeChunk texts i).2 with
      | none => rw [hr] at hch; cases hch
      | some cs' =>
        rw [hr] at hch
        cases hch
        have hcov' : ∀ k, k < cs'.length →
            exist.any (fun f =>
              endsWithJs f (getOutputPath pfx (num + 1 + k + 1))) = true := by
          intro k hk
          have := hcov (k + 1) (by simp only [List.length_cons]; omega)
          have harith : num + (k + 1) + 1 = num + 1 + k + 1 := by omega
          rw [harith] at this
          exact this
        have hrec := ih (takeChunk texts i).2 (num + 1) cs' hr hcov'
        rw [runAux, if_pos hlt, hrec]
        have hskip : jobRun exist (getOutputPath pfx (num + 1)) (succ (num + 1)) =
            (Except.ok (getOutputPath pfx (num + 1)), 0) := by
          rw [jobRun, if_pos]
          have := hcov 0 (by simp only [List.length_cons]; omega)
          simpa using this
        rw [hskip]
        simp only [List.length_cons, List.range_succ_eq_map, List.map_cons,
          List.map_map]
        have hfun : (fun k => Except.ok (getOutputPath pfx (num + 1 + k + 1))) =
            ((fun k => (Except.ok (getOutputPath pfx (num + k + 1)) :
              Except String String)) ∘ Nat.succ) := by
          funext k
          simp only [Function.comp_apply]
          have harith2 : num + 1 + k + 1 = num + Nat.succ k + 1 := by omega
          rw [harith2]
        rw [hfun]
    · rw [if_neg hlt] at hch
      cases hch
      rw [runAux]
      by_cases hle : texts.length ≤ i
      · rw [if_neg (by omega : ¬ i < texts.length)]
        rfl
      · omega

/-- C8: when the up-front listing covers every planned chunk output path,
`run` performs zero `ttsRequest` calls and the aggregate result is exactly
the precomputed output paths in chunk order. -/
theorem resume_skips_all (texts exist : List String) (pfx : String)
    (succ : Nat → Nat → Bool) (fuel : Nat) (cs : List (String × Nat × Nat))
    (hch : chunksAux texts fuel 0 = some cs)
    (hcov : ∀ k, k < cs.length →
      exist.any (fun f => endsWithJs f (getOutputPath pfx (k + 1))) = true) :
    runModel texts exist pfx succ fuel =
      some (Except.ok ((List.range cs.length).map
        (fun k => getOutputPath pfx (k + 1))), 0) := by
  have hcov0 : ∀ k, k < cs.length →
      exist.any (fun f => endsWithJs f (getOutputPath pfx (0 + k + 1))) = true := by
    intro k hk
    have harith : 0 + k + 1 = k + 1 := by omega
    rw [harith]
    exact hcov k hk
  have h := runAux_skip texts exist pfx succ fuel 0 0 cs hch hcov0
  rw [runModel, h]
  simp only [Option.map_some']
  have hmap : (List.range cs.length).map
      (fun k => (Except.ok (getOutputPath pfx (0 + k + 1)) : Except String String)) =
      ((List.range cs.length).map (fun k => getOutputPath pfx (k + 1))).map
        Except.ok := by
    rw [List.map_map]
    apply List.map_congr_left
    intro k _
    simp only [Function.comp_apply]
    have harith : 0 + k + 1 = k + 1 := by omega
    rw [harith]
  rw [hmap, collectAll_ok]

theorem resume_skips_all_witness :
    runModel ["ab"] ["x/output-001.mp3"] "x" (fun _ _ => false) 1 =
      some (Except.ok ((List.range ([("ab", 0, 1)] :
          List (String × Nat × Nat)).length).map
        (fun k => getOutputPath "x" (k + 1))), 0) :=
  resume_skips_all ["ab"] ["x/output-001.mp3"] "x" (fun _ _ => false) 1
    [("ab", 0, 1)] (by decide)
    (by
      intro k hk
      have hk0 : k = 0 := by
        simp only [List.length_cons, List.length_nil] at hk
        omega
      subst hk0
      decide)

/-! ### OcrTask (`src/app.ts`): idempotency check and shard ordering. -/

/-- The first maximal digit run of a name, as matched by the capture of
`name.replace(/^.*?([0-9]+).*$/, '$1')`. -/
def firstDigitRun : List Char → Option (List Char)
  | [] => none
  | c :: cs => if c.isDigit then some (c :: cs.takeWhile Char.isDigit) else firstDigitRun cs

/-- `parseInt(digits, 10)`. -/
def digitsToNat (ds : List Char) : Nat := ds.foldl (fun n c => 10 * n + (c.toNat - 48)) 0

/-- `OcrTask.ord(name)`: the numeric value of the first digit run of the
name.  `none` models the `NaN` produced by `parseInt` when the name contains
no digits. -/
def ord (name : String) : Option Nat := (firstDigitRun name.data).map digitsToNat

/-- Adjacent-pairs check that a name list is sorted by `ord` (the numeric
substring); pairs without digits are not constrained (their JS comparator
value is `NaN`). -/
def sortedByOrdB : List String → Bool
  | a :: b :: rest =>
    (match ord a, ord b with
     | some x, some y => decide (x ≤ y)
     | _, _ => true) && sortedByOrdB (b :: rest)
  | _ => true

/-- Insertion step for `sortByOrd`. -/
def insertByOrd (a : String) : List String → List String
  | [] => [a]
  | b :: rest =>
    if (ord a).getD 0 ≤ (ord b).getD 0 then a :: b :: rest else b :: insertByOrd a rest

/-- Model of `files.sort((a, b) => this.ord(a) - this.ord(b))` on the
fresh-OCR branch (a comparison sort by the `ord` key; names without digits,
whose JS comparator value is `NaN`, are given key 0 — the pipeline's shard
names always contain digits). -/
def sortByOrd : List String → List String
  | [] => []
  | a :: rest => insertByOrd a (sortByOrd rest)

/-- `OcrTask.run` reduced to its storage-visible behaviour: given the listing
of the destination prefix and the shard list that a fresh OCR call would
produce, return the shard list given to the caller together with whether the
OCR provider was called.  The skip branch returns the listing as-is; only the
fresh-OCR branch sorts by `ord`. -/
def ocrRun (listing ocrShards : List String) : List String × Bool :=
  if listing.length > 0 then (listing, false)
  else (sortByOrd ocrShards, true)

/-- C4 (counterexample): with two existing shards listed in lexicographic
order (`...10...` before `...2...`), the skip branch returns the listing
unchanged and unsorted: the claimed numeric sort does not happen (the result
even differs from its own `ord`-sorted version). -/
theorem ocr_skip_unsorted_counterexample :
    ocrRun ["p/output-10.json", "p/output-2.json"] [] =
        (["p/output-10.json", "p/output-2.json"], false) ∧
      sortedByOrdB (ocrRun ["p/output-10.json", "p/output-2.json"] []).1 = false ∧
      (ocrRun ["p/output-10.json", "p/output-2.json"] []).1 ≠
        sortByOrd (ocrRun ["p/output-10.json", "p/output-2.json"] []).1 := by
  refine ⟨by decide, by decide, by decide⟩

/-- C4 (amended): when the destination prefix already has output objects,
`OcrTask.run` skips the OCR provider call and returns the listed shard list
unchanged, in listing order (no numeric sort on this branch). -/
theorem ocr_skip_returns_listing (listing shards : List String)
    (h : listing ≠ []) : ocrRun listing shards = (listing, false) := by
  unfold ocrRun
  rw [if_pos (List.length_pos.mpr h)]

theorem ocr_skip_returns_listing_witness :
    ocrRun ["p/output-10.json", "p/output-2.json"] ["x"] =
      (["p/output-10.json", "p/output-2.json"], false) :=
  ocr_skip_returns_listing ["p/output-10.json", "p/output-2.json"] ["x"]
    (by decide)

/-! ### ConcatMp3Task (`src/app.ts`): recursive batched merge. -/

/-- `ConcatMp3Task.maxCombine`. -/
def maxCombine : Nat := 32

/-- The `for (let i = 0; i < files.length; i += maxCombine)` slicing loop:
consecutive groups of at most `k` names.  Fuel-driven (`l.length` always
suffices when `k ≥ 1`). -/
def groupsOfAux (k : Nat) : Nat → List String → List (List String)
  | _, [] => []
  | 0, l => [l]
  | fuel + 1, l => l.take k :: groupsOfAux k fuel (l.drop k)

def groupsOf (k : Nat) (l : List String) : List (List String) :=
  groupsOfAux k l.length l

/-- POSIX `path.dirname`. -/
def dirname (s : String) : String :=
  match s.data.reverse.dropWhile (fun c => c != '/') with
  | [] => "."
  | ['/'] => "/"
  | _ :: rest => String.mk rest.reverse

/-- Capture of `^.*?-([0-9]{3}).*$`: the leftmost `-` that is followed by
three digits, returning those digits; `none` when the pattern has no match. -/
def firstDashDigits : List Char → Option (List Char)
  | '-' :: a :: b :: c :: rest =>
    if a.isDigit && b.isDigit && c.isDigit then some [a, b, c]
    else firstDashDigits (a :: b :: c :: rest)
  | _ :: rest => firstDashDigits rest
  | [] => none

/-- Capture of `^.*([0-9]{3})\.mp3$`: the three digits right before a final
`.mp3`; `none` when the name does not end that way. -/
def lastDigits3Mp3 (cs : List Char) : Option (List Char) :=
  match cs.reverse with
  | '3' :: 'p' :: 'm' :: '.' :: c :: b :: a :: _ =>
    if a.isDigit && b.isDigit && c.isDigit then some [a, b, c] else none
  | _ => none

/-- `ConcatMp3Task.getConcatFilePath(files)`: directory of the first member,
plus `concat-`, the first member's 3-digit index, the last member's trailing
3-digit index, and `.mp3`.  `replace` returns the whole name when the regex
does not match.  (Only called on non-empty groups; the empty case is given
defaults.) -/
def getConcatFilePath (files : List String) : String :=
  let f0 := files.headD ""
  let fl := files.getLastD ""
  let s := match firstDashDigits f0.data with
    | some ds => String.mk ds
    | none => f0
  let e := match lastDigits3Mp3 fl.data with
    | some ds => String.mk ds
    | none => fl
  dirname f0 ++ "/concat-" ++ s ++ "-" ++ e ++ ".mp3"

/-- `ConcatMp3Task.run(files, outputPath)` reduced to its storage-visible
behaviour: the result path together with the total number of `combine` calls
and of `copy` calls.  Empty input rejects; a single file is copied to the
output; otherwise one combine per group of at most `maxCombine`, then recurse
on the groups' intermediate paths.  Fuel-driven (`files.length` always
suffices); `none` means fuel ran out. -/
def concatRunAux : Nat → List String → String → Option (Except String (String × Nat × Nat))
  | _, [], _ => some (Except.error "files are empty")
  | _, [_], out => some (Except.ok (out, 0, 1))
  | 0, _, _ => none
  | fuel + 1, f :: g :: rest, out =>
    (concatRunAux fuel
        ((groupsOf maxCombine (f :: g :: rest)).map getConcatFilePath) out).map
      (fun r => r.map (fun p =>
        (p.1, p.2.1 + (groupsOf maxCombine (f :: g :: rest)).length, p.2.2)))

def concatRun (files : List String) (out : String) :
    Option (Except String (String × Nat × Nat)) :=
  concatRunAux files.length files out

theorem groupsOfAux_spec (k : Nat) (hk : 1 ≤ k) :
    ∀ (fuel : Nat) (l : List String), l.length ≤ fuel →
      (groupsOfAux k fuel l).flatten = l ∧
        (groupsOfAux k fuel l).length = (l.length + k - 1) / k ∧
        ∀ g ∈ groupsOfAux k fuel l, g ≠ [] ∧ g.length ≤ k := by
  intro fuel
  induction fuel with
  | zero =>
    intro l hl
    have : l = [] := List.length_eq_zero.mp (by omega)
    subst this
    refine ⟨rfl, ?_, by intro g hg; cases hg⟩
    show (0 : Nat) = (0 + k - 1) / k
    rw [Nat.div_eq_of_lt (by omega)]
  | succ fuel ih =>
    intro l hl
    cases l with
    | nil =>
      refine ⟨rfl, ?_, by intro g hg; cases hg⟩
      show (0 : Nat) = (0 + k - 1) / k
      rw [Nat.div_eq_of_lt (by omega)]
    | cons c cs =>
      have hlen : (c :: cs).length = cs.length + 1 := rfl
      have hdrop : ((c :: cs).drop k).length ≤ fuel := by
        rw [List.length_drop]
        omega
      obtain ⟨ihflat, ihlen, ihmem⟩ := ih ((c :: cs).drop k) hdrop
      rw [show groupsOfAux k (fuel + 1) (c :: cs) =
        (c :: cs).take k :: groupsOfAux k fuel ((c :: cs).drop k) from rfl]
      refine ⟨?_, ?_, ?_⟩
      · rw [List.flatten_cons, ihflat, List.take_append_drop]
      · rw [List.length_cons, ihlen, List.length_drop]
        have h1 : (c :: cs).length + k - 1 = ((c :: cs).length - 1) + k := by
          simp only [List.length_cons]
          omega
        rw [h1, Nat.add_div_right _ (by omega : 0 < k)]
        congr 1
        rcases Nat.le_total (c :: cs).length k with hle | hge
        · have e1 : (c :: cs).length - k = 0 := by omega
          rw [e1]
          rw [Nat.div_eq_of_lt (by omega : 0 + k - 1 < k)]
          rw [Nat.div_eq_of_lt
            (by simp only [List.length_cons]; omega : (c :: cs).length - 1 < k)]
        · have e2 : (c :: cs).length - k + k - 1 = (c :: cs).length - 1 := by omega
          rw [e2]
      · intro g hg
        rcases List.mem_cons.mp hg with rfl | hg2
        · refine ⟨?_, List.length_take_le k (c :: cs)⟩
          cases k with
          | zero => omega
          | succ k2 =>
            intro hcontra
            rw [List.take_succ_cons] at hcontra
            cases hcontra
        · exact ihmem g hg2

theorem groupsOf_spec (k : Nat) (hk : 1 ≤ k) (l : List String) :
    (groupsOf k l).flatten = l ∧
      (groupsOf k l).length = (l.length + k - 1) / k ∧
      ∀ g ∈ groupsOf k l, g ≠ [] ∧ g.length ≤ k :=
  groupsOfAux_spec k hk l.length l le_rfl

theorem concatRunAux_fuel : ∀ (fuel : Nat) (l : List String) (out : String),
    l.length ≤ fuel → concatRunAux fuel l out = concatRunAux l.length l out := by
  intro fuel
  induction fuel using Nat.strong_induction_on with
  | _ fuel ih =>
    intro l out hl
    cases l with
    | nil => cases fuel <;> rfl
    | cons f l1 =>
      cases l1 with
      | nil => cases fuel <;> rfl
      | cons g rest =>
        have hlen2 : 2 ≤ (f :: g :: rest).length := by
          simp only [List.length_cons]
          omega
        obtain ⟨fuel2, rfl⟩ : ∃ m, fuel = m + 1 :=
          ⟨fuel - 1, by simp only [List.length_cons] at hl; omega⟩
        have hl2len :
            ((groupsOf maxCombine (f :: g :: rest)).map getConcatFilePath).length <
              (f :: g :: rest).length := by
          rw [List.length_map,
            (groupsOf_spec maxCombine (by norm_num [maxCombine]) _).2.1]
          rw [Nat.div_lt_iff_lt_mul (by norm_num [maxCombine])]
          simp only [List.length_cons, maxCombine]
          omega
        have e1 : concatRunAux (fuel2 + 1) (f :: g :: rest) out =
            (concatRunAux fuel2
              ((groupsOf maxCombine (f :: g :: rest)).map getConcatFilePath) out).map
              (fun r => r.map (fun p =>
                (p.1, p.2.1 + (groupsOf maxCombine (f :: g :: rest)).length,
                  p.2.2))) := rfl
        have e2 : concatRunAux (f :: g :: rest).length (f :: g :: rest) out =
            (concatRunAux (rest.length + 1)
              ((groupsOf maxCombine (f :: g :: rest)).map getConcatFilePath) out).map
              (fun r => r.map (fun p =>
                (p.1, p.2.1 + (groupsOf maxCombine (f :: g :: rest)).length,
                  p.2.2))) := rfl
        rw [e1, e2]
        congr 1
        have hle1 : ((groupsOf maxCombine (f :: g :: rest)).map
            getConcatFilePath).length ≤ fuel2 := by
          simp only [List.length_cons] at hl hl2len
          omega
        have hle2 : ((groupsOf maxCombine (f :: g :: rest)).map
            getConcatFilePath).length ≤ rest.length + 1 := by
          simp only [List.length_cons] at hl2len
          omega
        rw [ih fuel2 (by omega) _ out hle1,
          ih (rest.length + 1) (by simp only [List.length_cons] at hl; omega) _ out hle2]

/-- 65 segment paths named `seg/x-001.mp3` .. `seg/x-065.mp3`. -/
def files65 : List String := (List.range 65).map (fun i => "seg/x-" ++ pad3 (i + 1) ++ ".mp3")

/-- C7: `ConcatMp3Task.run` rejects an empty list; a single segment is
materialized at the output path by one copy and zero combine calls; with two
or more segments one recursion level forms `ceil(N/32)` consecutive non-empty
groups of at most 32 (whose concatenation is the original list), issues one
combine per group, and recurses on the groups' intermediate paths; and on 65
segments the total is exactly 4 combine calls (3 at level one, 1 at level
two) followed by the final single-segment copy. -/
theorem merge_reduction :
    (∀ out, concatRun [] out = some (Except.error "files are empty")) ∧
      (∀ f out, concatRun [f] out = some (Except.ok (out, 0, 1))) ∧
      (∀ (files : List String) (out : String), 2 ≤ files.length →
        (groupsOf maxCombine files).length = (files.length + 31) / 32 ∧
          (groupsOf maxCombine files).flatten = files ∧
          (∀ g ∈ groupsOf maxCombine files, g ≠ [] ∧ g.length ≤ maxCombine) ∧
          concatRun files out =
            (concatRun ((groupsOf maxCombine files).map getConcatFilePath) out).map
              (fun r => r.map (fun p =>
                (p.1, p.2.1 + (groupsOf maxCombine files).length, p.2.2)))) ∧
      concatRun files65 "dev/out/final.mp3" =
        some (Except.ok ("dev/out/final.mp3", 4, 1)) := by
  refine ⟨fun out => rfl, fun f out => rfl, ?_, by rfl⟩
  intro files out hlen
  cases files with
  | nil => simp at hlen
  | cons f l1 =>
    cases l1 with
    | nil => simp at hlen
    | cons g rest =>
      obtain ⟨hflat, hglen, hmem⟩ :=
        groupsOf_spec maxCombine (by norm_num [maxCombine]) (f :: g :: rest)
      refine ⟨?_, hflat, hmem, ?_⟩
      · rw [hglen]
        norm_num [maxCombine]
      · have hl2len :
            ((groupsOf maxCombine (f :: g :: rest)).map getConcatFilePath).length <
              (f :: g :: rest).length := by
          rw [List.length_map, hglen]
          rw [Nat.div_lt_iff_lt_mul (by norm_num [maxCombine])]
          simp only [List.length_cons, maxCombine]
          omega
        have e2 : concatRun (f :: g :: rest) out =
            (concatRunAux (rest.length + 1)
              ((groupsOf maxCombine (f :: g :: rest)).map getConcatFilePath) out).map
              (fun r => r.map (fun p =>
                (p.1, p.2.1 + (groupsOf maxCombine (f :: g :: rest)).length,
                  p.2.2))) := rfl
        rw [e2, concatRunAux_fuel (rest.length + 1) _ out
          (by simp only [List.length_cons] at hl2len; omega)]
        rfl

theorem merge_reduction_witness :
    (groupsOf maxCombine ["d/a-001.mp3", "d/a-002.mp3"]).length =
        ((["d/a-001.mp3", "d/a-002.mp3"] : List String).length + 31) / 32 ∧
      (groupsOf maxCombine ["d/a-001.mp3", "d/a-002.mp3"]).flatten =
        ["d/a-001.mp3", "d/a-002.mp3"] ∧
      (∀ g ∈ groupsOf maxCombine ["d/a-001.mp3", "d/a-002.mp3"],
        g ≠ [] ∧ g.length ≤ maxCombine) ∧
      concatRun ["d/a-001.mp3", "d/a-002.mp3"] "o.mp3" =
        (concatRun ((groupsOf maxCombine ["d/a-001.mp3", "d/a-002.mp3"]).map
            getConcatFilePath) "o.mp3").map
          (fun r => r.map (fun p =>
            (p.1, p.2.1 + (groupsOf maxCombine ["d/a-001.mp3", "d/a-002.mp3"]).length,
              p.2.2))) :=
  merge_reduction.2.2.1 ["d/a-001.mp3", "d/a-002.mp3"] "o.mp3" (by decide)
